import Mathlib

/-!
Verification of the ashtadhyayi.com scraper (src/scraper/ashtadhyayi_scraper.py).

Strings are modelled as `List Char`.  Python semantics that the source relies
on (str.strip, str.split, str.zfill, dict.get, re.sub on the concrete patterns
used, int() parseability, BeautifulSoup get_text and in-place replacement) are
embedded as executable Lean functions, and the scraper's pure pipeline
(numeral normalization, filename/path derivation, the HTML-to-markdown
transform, listing-link validation, detail-page assembly, the scroll loop and
the per-entry merge in scrape_book) is translated from the source on top of
them.  Every function is structurally recursive so that concrete runs reduce
inside the kernel.
-/

namespace Ashtadhyayi

/-- Whitespace for Python str.strip and the regex class in re.sub patterns
(the Unicode whitespace characters; the program's data only ever carries the
ASCII ones). -/
def isPySpace (c : Char) : Bool :=
  c == ' ' || c == '\t' || c == '\n' || c == '\r' || c == '\x0b' || c == '\x0c' ||
  c == '\x85' || c == '\xa0' || c == ' ' ||
  (decide (0x2000 ≤ c.toNat) && decide (c.toNat ≤ 0x200a)) ||
  c == ' ' || c == ' ' || c == ' ' || c == ' ' || c == '　'

/-- Python str.strip with no argument: drop whitespace from both ends. -/
def pyStrip (l : List Char) : List Char :=
  ((l.dropWhile isPySpace).reverse.dropWhile isPySpace).reverse

/-- Python str.strip("/") and the like: drop a given character from both ends. -/
def pyStripChar (c : Char) (l : List Char) : List Char :=
  ((l.dropWhile (· == c)).reverse.dropWhile (· == c)).reverse

/-- Python s.split(sep) for a one-character separator sep. -/
def splitOnChar (c : Char) : List Char → List (List Char)
  | [] => [[]]
  | d :: rest =>
    if d = c then [] :: splitOnChar c rest
    else
      match splitOnChar c rest with
      | [] => [[d]]
      | p :: ps => (d :: p) :: ps

/-- Python sep.join(pieces). -/
def joinSep (sep : List Char) : List (List Char) → List Char
  | [] => []
  | [p] => p
  | p :: ps => p ++ sep ++ joinSep sep ps

/-- Python s.rstrip(":"): drop colons from the right end. -/
def rstripColon (l : List Char) : List Char :=
  (l.reverse.dropWhile (· == ':')).reverse

/-- Python str.zfill: left-pad with zeros to the given width, keeping a
leading sign character in front. -/
def zfill (w : Nat) (s : List Char) : List Char :=
  if w ≤ s.length then s
  else
    match s with
    | [] => List.replicate w '0'
    | c :: rest =>
      if c = '+' ∨ c = '-' then c :: (List.replicate (w - (c :: rest).length) '0' ++ rest)
      else List.replicate (w - (c :: rest).length) '0' ++ (c :: rest)

/-- ASCII decimal digit. -/
def isAsciiDigit (c : Char) : Bool :=
  decide ('0' ≤ c) && decide (c ≤ '9')

/-- Decimal digit as Python str.isdigit and int() see it, restricted to the
digit scripts this program's data carries (ASCII, Devanagari, Gujarati). -/
def isPyDigitChar (c : Char) : Bool :=
  isAsciiDigit c ||
  (decide (0x966 ≤ c.toNat) && decide (c.toNat ≤ 0x96F)) ||
  (decide (0xAE6 ≤ c.toNat) && decide (c.toNat ≤ 0xAEF))

/-- Python str.isdigit: non-empty and all digit characters. -/
def pyStrIsdigit (s : List Char) : Bool :=
  !s.isEmpty && s.all isPyDigitChar

/-- Python str(n) for a natural number. -/
def natChars (n : Nat) : List Char :=
  (toString n).toList

/-- Python substring containment: needle in hay. -/
def hasSub (needle : List Char) : List Char → Bool
  | [] => needle.isEmpty
  | c :: rest => needle.isPrefixOf (c :: rest) || hasSub needle rest

/-- Python str.replace(old, new_text, 1) with an empty new_text: delete the
first occurrence of old. -/
def removeFirst (old : List Char) : List Char → List Char
  | [] => []
  | c :: rest =>
    if old.isPrefixOf (c :: rest) then List.drop old.length (c :: rest)
    else c :: removeFirst old rest

/-- The DEVA_TO_ENG class dictionary: Devanagari and Gujarati digits to
ASCII digits (source lines 171-177). -/
def DEVA_TO_ENG : List (Char × Char) :=
  [('०', '0'), ('१', '1'), ('२', '2'), ('३', '3'), ('४', '4'),
   ('५', '5'), ('६', '6'), ('७', '7'), ('८', '8'), ('९', '9'),
   ('૦', '0'), ('૧', '1'), ('૨', '2'), ('૩', '3'), ('૪', '4'),
   ('૫', '5'), ('૬', '6'), ('૭', '7'), ('૮', '8'), ('૯', '9')]

/-- One character through DEVA_TO_ENG.get(c, c). -/
def devaMap (c : Char) : Char :=
  (DEVA_TO_ENG.lookup c).getD c

/-- AshtadhyayiScraper._deva_to_english (source lines 258-260). -/
def devaToEnglish (s : List Char) : List Char :=
  s.map devaMap

/-- Spec-side description of the numeral substitution: a Devanagari digit
(U+0966..U+096F) or a Gujarati digit (U+0AE6..U+0AEF) becomes the ASCII digit
of the same value, every other character is unchanged. -/
def specDigitMap (c : Char) : Char :=
  if 0x966 ≤ c.toNat ∧ c.toNat ≤ 0x96F then Char.ofNat (c.toNat - 0x966 + '0'.toNat)
  else if 0xAE6 ≤ c.toNat ∧ c.toNat ≤ 0xAEF then Char.ofNat (c.toNat - 0xAE6 + '0'.toNat)
  else c

/-- The organize_by field of a book configuration. -/
inductive OrganizeBy where
  | flat
  | adhyayaPada
  | gana
deriving DecidableEq

/-- AshtadhyayiScraper._get_entry_filename (source lines 811-822). -/
def entryFilename (number : List Char) : List Char :=
  let eng := devaToEnglish number
  let eng2 :=
    if '.' ∈ eng then
      joinSep "_".toList ((splitOnChar '.' eng).map (zfill 2))
    else if pyStrIsdigit eng then zfill 2 eng
    else eng
  "entry_".toList ++ eng2 ++ ".md".toList

/-- The per-entry output path derived in save_to_markdown (source lines
784-798), relative to the book directory: the hierarchical adhyaya/pada
branch when the mode is adhyaya_pada and the number is dotted with at least
three parts, otherwise the flat _get_entry_filename scheme. -/
def outputPath (org : OrganizeBy) (number : List Char) : List Char :=
  if org = OrganizeBy.adhyayaPada ∧ '.' ∈ number then
    let parts := splitOnChar '.' (devaToEnglish number)
    if 3 ≤ parts.length then
      "adhyaya_".toList ++ parts.getD 0 [] ++
      "/pada_".toList ++ parts.getD 1 [] ++
      "/sutra_".toList ++ zfill 3 (parts.getD 2 []) ++ ".md".toList
    else entryFilename number
  else entryFilename number

/-- The number fallback of scrape_book (source lines 747-748): keep the
listing number when non-empty, else the detail page's number when a detail
result exists, else the 1-based positional index. -/
def resolveNumber (listingNumber : List Char) (detailNumber : Option (List Char))
    (i : Nat) : List Char :=
  if listingNumber ≠ [] then listingNumber
  else
    match detailNumber with
    | some n => n
    | none => natChars i

/-- A dot-separated segment acceptable for a canonical entry number:
non-empty, ASCII digits, no leading zero (except the single digit 0). -/
def goodSeg (s : List Char) : Bool :=
  !s.isEmpty && s.all isAsciiDigit && (s.head? != some '0' || s == ['0'])

/-- Well-formed entry number for a given organization mode: every dot
segment canonical, and for the hierarchical mode at most three segments
(the site's adhyaya.pada.sutra scheme). -/
def wellFormedNum (org : OrganizeBy) (n : List Char) : Bool :=
  ((splitOnChar '.' n).all goodSeg) &&
  (if org = OrganizeBy.adhyayaPada then decide ((splitOnChar '.' n).length ≤ 3) else true)

/-- Inverse of zero-padding on canonical segments: drop leading zeros,
mapping the all-zero pad back to the single digit 0. -/
def unzero (s : List Char) : List Char :=
  let t := s.dropWhile (· == '0')
  if t = [] then ['0'] else t

/-! The pagination crawler _scroll_to_load_all (source lines 375-410).
The page's state is abstracted as the function from the number of scroll
commands issued so far to the number of entry anchors the DOM then holds. -/

/-- The Python truthiness-guarded limit test
if self.limit and current_count >= self.limit (source line 397). -/
def limitHit (limit : Option Nat) (current : Nat) : Bool :=
  match limit with
  | some l => decide (l ≠ 0) && decide (l ≤ current)
  | none => false

/-- One unfolding of the while loop of _scroll_to_load_all; fuel is the
remaining number of iterations permitted by the max_scrolls cap, k the
current scroll_count.  Returns scroll_count at exit and the returned
last_count. -/
def scrollAux (counts : Nat → Nat) (limit : Option Nat) :
    Nat → Nat → Nat → Nat → Nat × Nat
  | 0, last, _, k => (k, last)
  | fuel + 1, last, nc, k =>
    let current := counts k
    if current = last then
      if 5 ≤ nc + 1 then (k, last)
      else if limitHit limit current then (k, last)
      else scrollAux counts limit fuel last (nc + 1) (k + 1)
    else
      if limitHit limit current then (k, current)
      else scrollAux counts limit fuel current 0 (k + 1)

/-- AshtadhyayiScraper._scroll_to_load_all with the default max_scrolls of
500: starts with last_count 0, no_change_count 0, scroll_count 0. -/
def scrollToLoadAll (counts : Nat → Nat) (limit : Option Nat) : Nat × Nat :=
  scrollAux counts limit 500 0 0 0

/-! Python int() parseability, used by the sutraani link validation. -/

/-- After the first digit: the rest of an int() literal body, where single
underscores may stand between digits. -/
def intTailOk : List Char → Bool
  | [] => true
  | '_' :: c :: rest => isPyDigitChar c && intTailOk rest
  | ['_'] => false
  | c :: rest => isPyDigitChar c && intTailOk rest

/-- Digit sequence with optional single underscores between digits. -/
def intBodyOk : List Char → Bool
  | [] => false
  | c :: rest => isPyDigitChar c && intTailOk rest

/-- Python int(s) succeeds: optional surrounding whitespace, optional sign,
then a digit sequence with optional single underscores between digits. -/
def pyIntOk (s : List Char) : Bool :=
  let t := pyStrip s
  match t with
  | c :: rest => if c = '+' ∨ c = '-' then intBodyOk rest else intBodyOk (c :: rest)
  | [] => false

/-! The markup model.  A parsed fragment is a forest, represented as a
sibling-chained tree: a text node or an element node (tag, class list, href
attribute - the only attribute the transform reads - and child forest),
each followed by its next sibling.  BeautifulSoup's get_text and in-place
replace_with are modelled directly on this representation. -/

inductive HTree where
  | nil : HTree
  | textCons (s : List Char) (sib : HTree) : HTree
  | elemCons (tag : List Char) (classes : List (List Char)) (href : Option (List Char))
      (children : HTree) (sib : HTree) : HTree

/-- All strings of a forest in document order (BeautifulSoup .strings). -/
def allTexts : HTree → List (List Char)
  | HTree.nil => []
  | HTree.textCons s sib => s :: allTexts sib
  | HTree.elemCons _ _ _ ch sib => allTexts ch ++ allTexts sib

/-- BeautifulSoup get_text(strip=True) on an element with the given child
forest: strip each string, drop the empty ones, concatenate. -/
def getTextStrip (t : HTree) : List Char :=
  joinSep [] (((allTexts t).map pyStrip).filter (fun p => !p.isEmpty))

/-- BeautifulSoup get_text(separator=sep): join all strings with sep. -/
def getTextSep (sep : List Char) (t : HTree) : List Char :=
  joinSep sep (allTexts t)

/-- One rewrite pass over the forest: f names the elements a soup.select
loop would visit (from their tag, classes, href and child forest) and the
string each is replaced with; a replaced element's subtree is gone, an
untouched element keeps its children (which the same pass still visits, as
BeautifulSoup's precomputed select list does). -/
def rewritePass
    (f : List Char → List (List Char) → Option (List Char) → HTree → Option (List Char)) :
    HTree → HTree
  | HTree.nil => HTree.nil
  | HTree.textCons s sib => HTree.textCons s (rewritePass f sib)
  | HTree.elemCons tag cls href ch sib =>
    match f tag cls href ch with
    | some s => HTree.textCons s (rewritePass f sib)
    | none => HTree.elemCons tag cls href (rewritePass f ch) (rewritePass f sib)

/-- The paragraph-break sentinel PARA_BREAK of _html_to_markdown. -/
def paraBreakChars : List Char := "\n\n【PARA】\n\n".toList

/-- The bare sentinel marker the flattened text is split on. -/
def paraMarker : List Char := "【PARA】".toList

/-- Does the element's class list contain one of the wanted classes. -/
def hasAnyClass (classes want : List (List Char)) : Bool :=
  classes.any (fun c => want.contains c)

/-- Pass 1 (source lines 274-277): .prakriya/.derivation/.prakriya-box
elements become a block quote bounded by paragraph breaks, when their
stripped text is non-empty. -/
def tryPrakriya (_tag : List Char) (cls : List (List Char)) (_href : Option (List Char))
    (ch : HTree) : Option (List Char) :=
  if hasAnyClass cls ["prakriya".toList, "derivation".toList, "prakriya-box".toList] then
    let t := getTextStrip ch
    if t ≠ [] then some (paraBreakChars ++ "> ".toList ++ t ++ paraBreakChars) else none
  else none

/-- Pass 2 (source lines 281-284): .section-header/h3/h4/h5 become a level-3
heading bounded by paragraph breaks, when their stripped text is non-empty. -/
def tryHeader (tag : List Char) (cls : List (List Char)) (_href : Option (List Char))
    (ch : HTree) : Option (List Char) :=
  if hasAnyClass cls ["section-header".toList] ||
      tag == "h3".toList || tag == "h4".toList || tag == "h5".toList then
    let t := getTextStrip ch
    if t ≠ [] then some (paraBreakChars ++ "### ".toList ++ t ++ paraBreakChars) else none
  else none

/-- Pass 3 (source lines 288-291): b/strong become inline strong emphasis. -/
def tryBold (tag : List Char) (_cls : List (List Char)) (_href : Option (List Char))
    (ch : HTree) : Option (List Char) :=
  if tag == "b".toList || tag == "strong".toList then
    let t := getTextStrip ch
    if t ≠ [] then some ("**".toList ++ t ++ "**".toList) else none
  else none

/-- Pass 4 (source lines 294-297): .font-weight-bold/.bigtext-font become
inline strong emphasis. -/
def tryFwb (_tag : List Char) (cls : List (List Char)) (_href : Option (List Char))
    (ch : HTree) : Option (List Char) :=
  if hasAnyClass cls ["font-weight-bold".toList, "bigtext-font".toList] then
    let t := getTextStrip ch
    if t ≠ [] then some ("**".toList ++ t ++ "**".toList) else none
  else none

/-- Pass 5 (source lines 300-303): i/em become inline light emphasis. -/
def tryItalic (tag : List Char) (_cls : List (List Char)) (_href : Option (List Char))
    (ch : HTree) : Option (List Char) :=
  if tag == "i".toList || tag == "em".toList then
    let t := getTextStrip ch
    if t ≠ [] then some ("*".toList ++ t ++ "*".toList) else none
  else none

/-- Pass 6 (source lines 306-307): br becomes a plain newline,
unconditionally. -/
def tryBr (tag : List Char) (_cls : List (List Char)) (_href : Option (List Char))
    (_ch : HTree) : Option (List Char) :=
  if tag == "br".toList then some ['\n'] else none

/-- Pass 7 (source lines 310-311): .section-separator/hr become a horizontal
rule bounded by paragraph breaks, unconditionally. -/
def trySep (tag : List Char) (cls : List (List Char)) (_href : Option (List Char))
    (_ch : HTree) : Option (List Char) :=
  if hasAnyClass cls ["section-separator".toList] || tag == "hr".toList then
    some (paraBreakChars ++ "---".toList ++ paraBreakChars)
  else none

/-- Pass 8 (source lines 314-318): div.mt-3/.mt-4/.mb-3/.mb-4 become their
text bounded by paragraph breaks, when the stripped text is non-empty. -/
def tryMargin (tag : List Char) (cls : List (List Char)) (_href : Option (List Char))
    (ch : HTree) : Option (List Char) :=
  if tag == "div".toList &&
      hasAnyClass cls ["mt-3".toList, "mt-4".toList, "mb-3".toList, "mb-4".toList] then
    let t := getTextStrip ch
    if t ≠ [] then some (paraBreakChars ++ t ++ paraBreakChars) else none
  else none

/-- Pass 9 (source lines 321-327): a elements become markdown links when
text and href are both present, else bare text when the text is present. -/
def tryLink (tag : List Char) (_cls : List (List Char)) (href : Option (List Char))
    (ch : HTree) : Option (List Char) :=
  if tag == "a".toList then
    let t := getTextStrip ch
    let h := href.getD []
    if t ≠ [] ∧ h ≠ [] then some ("[".toList ++ t ++ "](".toList ++ h ++ ")".toList)
    else if t ≠ [] then some t
    else none
  else none

/-- The nine rewrite passes of _html_to_markdown in source order. -/
def applyPasses (t : HTree) : HTree :=
  rewritePass tryLink
    (rewritePass tryMargin
      (rewritePass trySep
        (rewritePass tryBr
          (rewritePass tryItalic
            (rewritePass tryFwb
              (rewritePass tryBold
                (rewritePass tryHeader
                  (rewritePass tryPrakriya t))))))))

/-- re.sub of one-or-more spaces/tabs with a single space, scanning left to
right (source line 335).  The boolean remembers whether the previous kept
character came from a space/tab run. -/
def collapseSpacesAux : Bool → List Char → List Char
  | _, [] => []
  | prev, c :: rest =>
    if c == ' ' || c == '\t' then
      if prev then collapseSpacesAux true rest else ' ' :: collapseSpacesAux true rest
    else c :: collapseSpacesAux false rest

/-- text = re.sub of space/tab runs to a single space. -/
def collapseSpaces (l : List Char) : List Char :=
  collapseSpacesAux false l

/-- Python text.split on the six-character paragraph marker (source line
339), scanning for the marker and cutting at each non-overlapping
occurrence.  The marker 【PARA】 is matched character by character so that
the recursion stays structural. -/
def paraSplitGo : List Char → List Char → List (List Char)
  | '【' :: 'P' :: 'A' :: 'R' :: 'A' :: '】' :: rest, acc => acc.reverse :: paraSplitGo rest []
  | c :: rest, acc => paraSplitGo rest (c :: acc)
  | [], acc => [acc.reverse]

/-- text.split of the flattened text on the paragraph marker. -/
def paraSplit (l : List Char) : List (List Char) :=
  paraSplitGo l []

/-- The per-step formatting of a derivation chain (source lines 352-359):
strip each step, drop the empty ones, re-prefix every non-first step with
the arrow. -/
def formatSteps (steps : List (List Char)) : List (List Char) :=
  steps.enum.filterMap fun p =>
    let st := pyStrip p.2
    if st = [] then none
    else if p.1 = 0 then some st
    else some ('→' :: ' ' :: st)

/-- The arrow branch of the paragraph loop (source lines 348-360): a
paragraph holding an arrow and not starting with the block-quote marker is
split on the arrow and re-joined step by step with blank lines. -/
def arrowFormat (para : List Char) : List Char :=
  if '→' ∈ para ∧ para.head? ≠ some '>' then
    let steps := splitOnChar '→' para
    if 1 < steps.length then joinSep "\n\n".toList (formatSteps steps) else para
  else para

/-- One paragraph of the loop (source lines 342-362): strip, drop if empty,
else apply the arrow formatting. -/
def processPara (p : List Char) : Option (List Char) :=
  let s := pyStrip p
  if s = [] then none else some (arrowFormat s)

/-- re.sub of three-or-more newlines with exactly two (source line 368):
while three newlines stand together, drop one. -/
def collapseNewlines : List Char → List Char
  | '\n' :: '\n' :: '\n' :: rest => collapseNewlines ('\n' :: '\n' :: rest)
  | c :: rest => c :: collapseNewlines rest
  | [] => []

/-- re.sub removing an emphasis pair that wraps only whitespace
(source line 369), as a left-to-right scan over the states of the pattern:
state 0 outside, 1 after one star, 2 after two stars (ws holds the
whitespace read so far), 3 after two stars, non-empty whitespace and one
star, 4 after three bare stars.  A failed partial is emitted as read; the
one place a match can restart inside a failed partial - three bare stars
followed by whitespace, where the scan resumes from the second star - hands
one star on and returns to state 2. -/
def rebGo : Nat → List Char → List Char → List Char
  | 0, _, [] => []
  | 0, _, c :: rest => if c = '*' then rebGo 1 [] rest else c :: rebGo 0 [] rest
  | 1, _, [] => ['*']
  | 1, _, c :: rest => if c = '*' then rebGo 2 [] rest else '*' :: c :: rebGo 0 [] rest
  | 2, ws, [] => '*' :: '*' :: ws.reverse
  | 2, ws, c :: rest =>
    if isPySpace c then rebGo 2 (c :: ws) rest
    else if c = '*' then (if ws = [] then rebGo 4 [] rest else rebGo 3 ws rest)
    else '*' :: '*' :: ws.reverse ++ c :: rebGo 0 [] rest
  | 3, ws, [] => '*' :: '*' :: ws.reverse ++ ['*']
  | 3, ws, c :: rest =>
    if c = '*' then rebGo 0 [] rest
    else '*' :: '*' :: ws.reverse ++ '*' :: c :: rebGo 0 [] rest
  | 4, _, [] => ['*', '*', '*']
  | 4, _, c :: rest =>
    if c = '*' then rebGo 0 [] rest
    else if isPySpace c then '*' :: rebGo 2 [c] rest
    else '*' :: '*' :: '*' :: c :: rebGo 0 [] rest
  | _ + 5, _, l => l

/-- text = re.sub dropping emphasis pairs around whitespace. -/
def removeEmptyBold (l : List Char) : List Char :=
  rebGo 0 [] l

/-- The punctuation marks of the whitespace-fix pattern (source line 370). -/
def isClausePunct (c : Char) : Bool :=
  c == '।' || c == '॥' || c == ',' || c == ';' || c == ':' || c == '.'

/-- re.sub deleting whitespace runs that precede a clause punctuation mark
(source line 370), as a left-to-right scan: ws holds the pending
whitespace run (reversed); a run followed by a punctuation mark is dropped,
any other run is emitted as read. -/
def fpGo : List Char → List Char → List Char
  | ws, [] => ws.reverse
  | ws, c :: rest =>
    match ws with
    | [] => if isPySpace c then fpGo [c] rest else c :: fpGo [] rest
    | _ =>
      if isPySpace c then fpGo (c :: ws) rest
      else if isClausePunct c then c :: fpGo [] rest
      else ws.reverse ++ c :: fpGo [] rest

/-- text = re.sub deleting whitespace before clause punctuation. -/
def fixPunct (l : List Char) : List Char :=
  fpGo [] l

/-- The text post-processing of _html_to_markdown (source lines 331-373),
applied to the flattened text: collapse space runs, split on the paragraph
marker, strip/drop/arrow-format each paragraph, re-join with blank lines,
collapse newline runs, drop empty emphasis pairs, fix punctuation spacing,
strip. -/
def postProcess (t : List Char) : List Char :=
  let t1 := collapseSpaces t
  let kept := (paraSplit t1).filterMap processPara
  let t2 := joinSep "\n\n".toList kept
  let t3 := collapseNewlines t2
  let t4 := removeEmptyBold t3
  let t5 := fixPunct t4
  pyStrip t5

/-- AshtadhyayiScraper._html_to_markdown (source lines 262-373) on a parsed
markup fragment: run the nine rewrite passes, flatten with a single-space
separator, post-process the text. -/
def htmlToMarkdown (t : HTree) : List Char :=
  postProcess (getTextSep " ".toList (applyPasses t))

/-- The transformer applied to a plain-text string: text with no tags
parses to a single text node, on which the rewrite passes are identities
and get_text returns the text itself. -/
def transformPlain (t : List Char) : List Char :=
  htmlToMarkdown (HTree.textCons t HTree.nil)

/-! The detail-page extractor _parse_detail_page (source lines 569-664).
The page is abstracted by the outcome of the soup queries the function
performs; each found element is carried as its child forest, on which
get_text operates. -/

/-- One .list-group-item/.row of the summary region, with its optional
label element (.col-3/.col-4/.text-muted/label) and value element
(.col-9/.col-8). -/
structure SummaryRow where
  labelElem : Option HTree
  valueElem : Option HTree
  rowNode : HTree

/-- One element matched by the id pattern sutra-commentary-*-region: whether
its id contains the sutrartha marker, its optional .list-item-title-color
heading element, and the inner markup of its optional .sutra-commentary
element. -/
structure CommentaryRegion where
  isSutrartha : Bool
  titleElem : Option HTree
  contentElem : Option HTree

/-- A rendered detail page, abstracted by its query results. -/
structure DetailPage where
  titleElem : Option HTree
  summaryRows : Option (List SummaryRow)
  shortElem : Option HTree
  sutrarthaElem : Option HTree
  regions : List CommentaryRegion
  fallbackElem : Option HTree

/-- The parsed result of a detail page. -/
structure DetailResult where
  number : List Char
  title : List Char
  content : List Char
  sections : List (List Char × List Char)
deriving DecidableEq

/-- Python title.split(" ", 1): cut at the first space only. -/
def splitFirstSpace : List Char → List (List Char)
  | [] => [[]]
  | c :: rest =>
    if c = ' ' then [[], rest]
    else
      match splitFirstSpace rest with
      | [] => [[c]]
      | p :: ps => (c :: p) :: ps

/-- The stripped text of the title element, empty when the element is
absent (source lines 578-579). -/
def titleTextOf (p : DetailPage) : List Char :=
  match p.titleElem with
  | some e => getTextStrip e
  | none => []

/-- One summary row into its optional summary line (source lines 595-607):
a label/value pair rendered in bold when both elements exist and both texts
are non-empty, else the row's own text when non-empty and under 200
characters. -/
def summaryItem (r : SummaryRow) : Option (List Char) :=
  match r.labelElem, r.valueElem with
  | some le, some ve =>
    let label := rstripColon (getTextStrip le)
    let value := getTextStrip ve
    if label ≠ [] ∧ value ≠ [] then
      some ("**".toList ++ label ++ ":** ".toList ++ value)
    else none
  | _, _ =>
    let t := getTextStrip r.rowNode
    if t ≠ [] ∧ t.length < 200 then some t else none

/-- The joined summary content (source lines 592-610), empty when the
region is absent or yields no items. -/
def summaryContentOf (p : DetailPage) : List Char :=
  match p.summaryRows with
  | some rows =>
    let items := rows.filterMap summaryItem
    if items ≠ [] then joinSep "\n\n".toList items else []
  | none => []

/-- One commentary region into its optional named section (source lines
634-651): skipped when it is the sutrartha region, when its heading text is
empty, when it has no content element, or when its transformed content
strips to nothing. -/
def regionSection (r : CommentaryRegion) : Option (List Char × List Char) :=
  if r.isSutrartha then none
  else
    let name := match r.titleElem with
      | some e => getTextStrip e
      | none => []
    if name = [] then none
    else
      match r.contentElem with
      | some ns =>
        let ct := htmlToMarkdown ns
        if pyStrip ct ≠ [] then some (name, ct) else none
      | none => none

/-- The fixed name of the summary section (source line 631). -/
def summarySectionName : List Char := "सूत्र-विवरण (Summary)".toList

/-- AshtadhyayiScraper._parse_detail_page (source lines 569-664) after a
successful page load. -/
def parseDetailPage (p : DetailPage) : DetailResult :=
  let title := titleTextOf p
  let parts := if title ≠ [] then splitFirstSpace title else [[], []]
  let number := pyStrip (parts.getD 0 [])
  let entryTitle := if 1 < parts.length then pyStrip (parts.getD 1 []) else title
  let summaryContent := summaryContentOf p
  let shortMeaning := match p.shortElem with
    | some e => "**".toList ++ getTextStrip e ++ "**".toList
    | none => []
  let mainContent := match p.sutrarthaElem with
    | some ns => htmlToMarkdown ns
    | none => []
  let mainContent :=
    if shortMeaning ≠ [] ∧ mainContent ≠ [] then shortMeaning ++ "\n\n".toList ++ mainContent
    else if shortMeaning ≠ [] then shortMeaning
    else mainContent
  let sections :=
    (if summaryContent ≠ [] then [(summarySectionName, summaryContent)] else []) ++
    p.regions.filterMap regionSection
  let mainContent :=
    if mainContent = [] then
      match p.fallbackElem with
      | some e => getTextStrip e
      | none => []
    else mainContent
  { number := number, title := entryTitle, content := mainContent, sections := sections }

/-! The sutraani branch of the listing parser _parse_single_entry (source
lines 456-521).  A listing item is abstracted by its element name, its href
attribute, the outcome of its sub-element queries, its own child forest for
full-text extraction, and the sibling elements that follow it. -/

/-- A candidate listing item. -/
structure ListItem where
  tag : List Char
  href : Option (List Char)
  badgeElem : Option HTree
  titleElem : Option HTree
  kaumudiElem : Option HTree
  selfNode : HTree
  following : List (List Char × HTree)

/-- The parsed summary of a sutraani listing entry. -/
structure SutraaniSummary where
  number : List Char
  title : List Char
  url : List Char
  notes : List (List Char)
  metadata : List (List Char × List Char)
  adhyaya : List Char
  pada : List Char
  sutra : List Char

/-- The sibling walk collecting bullet notes (source lines 504-510): scan
following siblings until the next anchor, keeping texts that start with a
bullet. -/
def collectNotes : List (List Char × HTree) → List (List Char)
  | [] => []
  | (name, node) :: rest =>
    if name = "a".toList then []
    else
      let t := getTextStrip node
      (if t.head? = some '•' then [t] else []) ++ collectNotes rest

/-- The scraped site's base URL. -/
def baseUrl : List Char := "https://ashtadhyayi.com".toList

/-- The kaumudi marker substring (source line 491). -/
def kaumudiMark : List Char := "कौमुदी".toList

/-- The sutraani branch of _parse_single_entry (source lines 459-521):
accept only anchors whose href has exactly four slash segments after
stripping slashes, the last three parseable as integers; then read number,
title, kaumudi metadata and notes. -/
def parseSingleSutraani (item : ListItem) : Option SutraaniSummary :=
  let href := item.href.getD []
  if item.tag = "a".toList ∧ "/sutraani/".toList.isPrefixOf href then
    let parts := splitOnChar '/' (pyStripChar '/' href)
    if parts.length = 4 then
      let adhyaya := parts.getD 1 []
      let pada := parts.getD 2 []
      let sutraNum := parts.getD 3 []
      if pyIntOk adhyaya && pyIntOk pada && pyIntOk sutraNum then
        let number := match item.badgeElem with
          | some e => getTextStrip e
          | none => adhyaya ++ ['.'] ++ pada ++ ['.'] ++ sutraNum
        let title0 := match item.titleElem with
          | some e => getTextStrip e
          | none => []
        let kaumudi := match item.kaumudiElem with
          | some e =>
            let t := getTextStrip e
            if hasSub kaumudiMark t then t else []
          | none => []
        let title :=
          if title0 = [] then
            let fullText := getTextStrip item.selfNode
            let fullText := if number ≠ [] then removeFirst number fullText else fullText
            let fullText := if kaumudi ≠ [] then removeFirst kaumudi fullText else fullText
            pyStrip fullText
          else title0
        some { number := number, title := title, url := baseUrl ++ href,
               notes := collectNotes item.following,
               metadata := if kaumudi ≠ [] then [("kaumudi".toList, kaumudi)] else [],
               adhyaya := adhyaya, pada := pada, sutra := sutraNum }
      else none
    else none
  else none

/-- The spec's acceptance rule for segmented-path links, stated from the
spec's words: the href begins with the sutraani path prefix, its
slash-stripped path has exactly four segments, and the last three segments
are parseable as integers. -/
def specSegmentedValid (href : List Char) : Bool :=
  "/sutraani/".toList.isPrefixOf href &&
  (let segs := splitOnChar '/' (pyStripChar '/' href)
   decide (segs.length = 4) && ((segs.drop 1).all pyIntOk))

/-! The per-entry merge of scrape_book (source lines 728-752). -/

/-- A listing summary as the generic books produce it. -/
structure EntrySummary where
  number : List Char
  title : List Char
  url : List Char
  notes : List (List Char)
  metadata : List (List Char × List Char)

/-- The merged entry record. -/
structure EntryInfo where
  number : List Char
  title : List Char
  url : List Char
  content : List Char
  sections : List (List Char × List Char)
  notes : List (List Char)
  metadata : List (List Char × List Char)
deriving DecidableEq

/-- The EntryInfo construction and fallbacks of scrape_book (source lines
737-750) for the entry at 1-based position i with an optional detail
result. -/
def buildEntry (data : EntrySummary) (detail : Option DetailResult) (i : Nat) : EntryInfo :=
  let e : EntryInfo :=
    { number := data.number, title := data.title, url := data.url,
      content := match detail with | some d => d.content | none => [],
      sections := match detail with | some d => d.sections | none => [],
      notes := data.notes, metadata := data.metadata }
  let e := if e.number = [] then
      { e with number := match detail with | some d => d.number | none => natChars i }
    else e
  if e.title = [] then
    { e with title := match detail with | some d => d.title | none => [] }
  else e

/-- The entry loop of scrape_book (source lines 728-752) without a limit:
every listing summary is merged with its fetch outcome, enumerated from 1,
and appended to the chapter. -/
def scrapeEntries (rows : List (EntrySummary × Option DetailResult)) : List EntryInfo :=
  rows.enum.map fun p => buildEntry p.2.1 p.2.2 (p.1 + 1)

/-- A markup fragment on which re-running the transformer over its own
output changes the text: a margin div followed by a derivation box whose
chain holds two adjacent arrows. -/
def markupExample : HTree :=
  HTree.elemCons "div".toList ["mt-3".toList] none
    (HTree.textCons "a".toList HTree.nil)
    (HTree.elemCons "div".toList ["prakriya".toList] none
      (HTree.textCons "x →→ y".toList HTree.nil) HTree.nil)

/-- A detail page whose title element is present but empty. -/
def emptyTitlePage : DetailPage :=
  { titleElem := some HTree.nil, summaryRows := none, shortElem := none,
    sutrarthaElem := none, regions := [], fallbackElem := none }

/-- A concrete sutraani listing anchor with a four-segment numeric href. -/
def sutraaniItemExample : ListItem :=
  { tag := "a".toList, href := some "/sutraani/1/2/3".toList, badgeElem := none,
    titleElem := none, kaumudiElem := none, selfNode := HTree.nil, following := [] }

/-- A detail page whose title element holds a single space-free word. -/
def titlePageExample : DetailPage :=
  { titleElem := some (HTree.textCons "१.१.१".toList HTree.nil), summaryRows := none,
    shortElem := none, sutrarthaElem := none, regions := [], fallbackElem := none }

/-- A detail page with one named commentary region holding plain text. -/
def commentaryPageExample : DetailPage :=
  { titleElem := none, summaryRows := none, shortElem := none, sutrarthaElem := none,
    regions := [{ isSutrartha := false,
                  titleElem := some (HTree.textCons "नाम".toList HTree.nil),
                  contentElem := some (HTree.textCons "पाठ".toList HTree.nil) }],
    fallbackElem := none }

/-! Theorems. -/

/-- Characters with equal code points are equal. -/
theorem charEqOfToNat {c d : Char} (h : c.toNat = d.toNat) : c = d := by
  apply Char.ext
  exact UInt32.ext h

/-- A helper for transporting the per-character numeral lemma along a
code-point equality. -/
theorem devaCase {c : Char} (d : Char) (h : c.toNat = d.toNat)
    (he : devaMap d = specDigitMap d) : devaMap c = specDigitMap c := by
  rw [charEqOfToNat h]
  exact he

/-- An association-list lookup misses when no key matches. -/
theorem lookupNone {β : Type} {l : List (Char × β)} {c : Char}
    (h : ∀ p ∈ l, p.1 ≠ c) : l.lookup c = none := by
  induction l with
  | nil => rfl
  | cons p rest ih =>
    simp only [List.lookup]
    cases hb : c == p.1 with
    | true => exact absurd (eq_of_beq hb).symm (h p (by simp))
    | false => exact ih fun q hq => h q (by simp [hq])

/-- The dictionary substitution agrees character by character with the
spec-side description. -/
theorem devaMap_spec (c : Char) : devaMap c = specDigitMap c := by
  by_cases hd : 0x966 ≤ c.toNat ∧ c.toNat ≤ 0x96F
  · have h10 : c.toNat = 2406 ∨ c.toNat = 2407 ∨ c.toNat = 2408 ∨ c.toNat = 2409 ∨
        c.toNat = 2410 ∨ c.toNat = 2411 ∨ c.toNat = 2412 ∨ c.toNat = 2413 ∨
        c.toNat = 2414 ∨ c.toNat = 2415 := by omega
    rcases h10 with h | h | h | h | h | h | h | h | h | h
    · exact devaCase '०' (by rw [h]; decide) (by decide)
    · exact devaCase '१' (by rw [h]; decide) (by decide)
    · exact devaCase '२' (by rw [h]; decide) (by decide)
    · exact devaCase '३' (by rw [h]; decide) (by decide)
    · exact devaCase '४' (by rw [h]; decide) (by decide)
    · exact devaCase '५' (by rw [h]; decide) (by decide)
    · exact devaCase '६' (by rw [h]; decide) (by decide)
    · exact devaCase '७' (by rw [h]; decide) (by decide)
    · exact devaCase '८' (by rw [h]; decide) (by decide)
    · exact devaCase '९' (by rw [h]; decide) (by decide)
  · by_cases hg : 0xAE6 ≤ c.toNat ∧ c.toNat ≤ 0xAEF
    · have h10 : c.toNat = 2790 ∨ c.toNat = 2791 ∨ c.toNat = 2792 ∨ c.toNat = 2793 ∨
          c.toNat = 2794 ∨ c.toNat = 2795 ∨ c.toNat = 2796 ∨ c.toNat = 2797 ∨
          c.toNat = 2798 ∨ c.toNat = 2799 := by omega
      rcases h10 with h | h | h | h | h | h | h | h | h | h
      · exact devaCase '૦' (by rw [h]; decide) (by decide)
      · exact devaCase '૧' (by rw [h]; decide) (by decide)
      · exact devaCase '૨' (by rw [h]; decide) (by decide)
      · exact devaCase '૩' (by rw [h]; decide) (by decide)
      · exact devaCase '૪' (by rw [h]; decide) (by decide)
      · exact devaCase '૫' (by rw [h]; decide) (by decide)
      · exact devaCase '૬' (by rw [h]; decide) (by decide)
      · exact devaCase '૭' (by rw [h]; decide) (by decide)
      · exact devaCase '૮' (by rw [h]; decide) (by decide)
      · exact devaCase '૯' (by rw [h]; decide) (by decide)
    · have hlook : DEVA_TO_ENG.lookup c = none := by
        apply lookupNone
        intro p hp
        fin_cases hp <;> intro e
        · rw [← e] at hd; exact hd (by decide)
        · rw [← e] at hd; exact hd (by decide)
        · rw [← e] at hd; exact hd (by decide)
        · rw [← e] at hd; exact hd (by decide)
        · rw [← e] at hd; exact hd (by decide)
        · rw [← e] at hd; exact hd (by decide)
        · rw [← e] at hd; exact hd (by decide)
        · rw [← e] at hd; exact hd (by decide)
        · rw [← e] at hd; exact hd (by decide)
        · rw [← e] at hd; exact hd (by decide)
        · rw [← e] at hg; exact hg (by decide)
        · rw [← e] at hg; exact hg (by decide)
        · rw [← e] at hg; exact hg (by decide)
        · rw [← e] at hg; exact hg (by decide)
        · rw [← e] at hg; exact hg (by decide)
        · rw [← e] at hg; exact hg (by decide)
        · rw [← e] at hg; exact hg (by decide)
        · rw [← e] at hg; exact hg (by decide)
        · rw [← e] at hg; exact hg (by decide)
        · rw [← e] at hg; exact hg (by decide)
      rw [devaMap, hlook, specDigitMap, if_neg hd, if_neg hg]
      rfl

/-- C6: numeral normalization replaces every Devanagari and Gujarati digit
by its ASCII equivalent and leaves every other character unchanged, on every
input string (mixed scripts included). -/
theorem C6_numeral_normalization (s : List Char) :
    devaToEnglish s = s.map specDigitMap := by
  rw [devaToEnglish, funext devaMap_spec]

/-- C5: the number 1.2.15 derives the path adhyaya_1/pada_2/sutra_015.md
under the hierarchical mode and the filename entry_01_02_15.md under the
flat mode. -/
theorem C5_path_examples :
    outputPath OrganizeBy.adhyayaPada "1.2.15".toList = "adhyaya_1/pada_2/sutra_015.md".toList ∧
    outputPath OrganizeBy.flat "1.2.15".toList = "entry_01_02_15.md".toList := by
  decide

/-- C9: the plain text a-arrow-b-arrow-c transforms to three lines, the
first a, then arrow-b, then arrow-c, each pair separated by a blank line. -/
theorem C9_arrow_chain :
    transformPlain "a → b → c".toList = "a\n\n→ b\n\n→ c".toList ∧
    splitOnChar '\n' (transformPlain "a → b → c".toList) =
      ["a".toList, [], "→ b".toList, [], "→ c".toList] := by
  decide

/-- C2 counterexample: on this fragment the transformer's second run over
its own output differs from that output, and not only in whitespace - the
adjacent arrows inside the block-quoted derivation chain are merged because
the second pass re-splits the whole text on the arrow. -/
theorem C2_counterexample :
    transformPlain (htmlToMarkdown markupExample) ≠ htmlToMarkdown markupExample ∧
    (transformPlain (htmlToMarkdown markupExample)).filter (fun c => !isPySpace c) ≠
      (htmlToMarkdown markupExample).filter (fun c => !isPySpace c) := by
  decide

/-- C1 counterexample: two distinct entries whose listing numbers are empty
and whose detail pages parse to an empty number both resolve to the empty
number - not to their positional indices - and collide on the single output
path entry_.md. -/
theorem C1_counterexample :
    outputPath OrganizeBy.flat (resolveNumber [] (some []) 1) =
      outputPath OrganizeBy.flat (resolveNumber [] (some []) 2) ∧
    resolveNumber [] (some []) 1 ≠ natChars 1 ∧
    outputPath OrganizeBy.flat (resolveNumber [] (some []) 1) = "entry_.md".toList := by
  decide

/-- C7 counterexample: an entry whose listing summary has an empty number
and whose detail fetch failed gets the positional index 3 as its number,
not the listing summary's number. -/
theorem C7_counterexample :
    (buildEntry ⟨[], "त".toList, "u".toList, [], []⟩ none 3).number = "3".toList ∧
    ("3".toList : List Char) ≠ [] := by
  decide

/-- C10 counterexample: a detail page whose title element's text is empty
contains no space character, yet the returned number is empty, against the
claim's assertion that the number is then not empty. -/
theorem C10_counterexample :
    (' ' ∉ titleTextOf emptyTitlePage) ∧ (parseDetailPage emptyTitlePage).number = [] := by
  decide

set_option maxRecDepth 4000 in
/-- C4 counterexample: on a listing whose measured count strictly decreases
at every iteration - so never grows - the crawl still runs all 500
iterations rather than stopping within five iterations of the last
increase, because the stall counter resets on every change of the count,
decreases included. -/
theorem C4_counterexample :
    (scrollToLoadAll (fun k => 500 - k) none).1 = 500 ∧
    ((List.range 500).all fun i => decide (500 - (i + 1) < 500 - i)) = true := by
  decide

theorem scrollAux_exit_le (counts : Nat → Nat) (limit : Option Nat) :
    ∀ fuel last nc k, (scrollAux counts limit fuel last nc k).1 ≤ k + fuel := by
  intro fuel
  induction fuel with
  | zero => intro last nc k; simp [scrollAux]
  | succ n ih =>
    intro last nc k
    simp only [scrollAux]
    split
    · split
      · simp
      · split
        · simp
        · have := ih last (nc + 1) (k + 1)
          omega
    · split
      · simp
      · have := ih (counts k) 0 (k + 1)
        omega

theorem scrollAux_const_last (counts : Nat → Nat) (limit : Option Nat) (k : Nat)
    (hC : ∀ j, k ≤ j → counts j = counts k) :
    ∀ fuel j nc, k ≤ j → (scrollAux counts limit fuel (counts k) nc j).1 ≤ j + (4 - nc) := by
  intro fuel
  induction fuel with
  | zero => intro j nc hj; simp [scrollAux]
  | succ n ih =>
    intro j nc hj
    have hcur : counts j = counts k := hC j hj
    simp only [scrollAux]
    rw [if_pos hcur]
    split
    next h5 => simp
    next h5 =>
      split
      next => simp
      next =>
        have := ih (j + 1) (nc + 1) (by omega)
        omega

theorem scrollAux_stall (counts : Nat → Nat) (limit : Option Nat) (k : Nat)
    (hC : ∀ j, k ≤ j → counts j = counts k) :
    ∀ fuel j last nc, k ≤ j → (scrollAux counts limit fuel last nc j).1 ≤ j + 5 := by
  intro fuel j last nc hj
  cases fuel with
  | zero => simp [scrollAux]
  | succ n =>
    by_cases hl : counts j = last
    · have hlast : last = counts k := by rw [← hl, hC j hj]
      subst hlast
      have := scrollAux_const_last counts limit k hC (n + 1) j nc hj
      omega
    · simp only [scrollAux]
      rw [if_neg hl]
      split
      · simp
      · have h2 := scrollAux_const_last counts limit k hC n (j + 1) 0 (by omega)
        have hk : counts j = counts k := hC j hj
        rw [← hk] at h2
        omega

theorem scrollAux_before (counts : Nat → Nat) (limit : Option Nat) (k : Nat)
    (hC : ∀ j, k ≤ j → counts j = counts k) :
    ∀ fuel j last nc, j ≤ k → (scrollAux counts limit fuel last nc j).1 ≤ k + 5 := by
  intro fuel
  induction fuel with
  | zero => intro j last nc hj; simp [scrollAux]; omega
  | succ n ih =>
    intro j last nc hj
    rcases Nat.eq_or_lt_of_le hj with he | hlt
    · subst he
      exact scrollAux_stall counts limit j hC (n + 1) j last nc (Nat.le_refl j)
    · simp only [scrollAux]
      split
      · split
        · simp; omega
        · split
          · simp; omega
          · have := ih (j + 1) last (nc + 1) (by omega)
            omega
      · split
        · simp; omega
        · have := ih (j + 1) (counts j) 0 (by omega)
          omega

theorem scrollAux_limit (counts : Nat → Nat) (limit : Option Nat) (k : Nat)
    (hL : limitHit limit (counts k) = true) :
    ∀ fuel j last nc, j ≤ k → (scrollAux counts limit fuel last nc j).1 ≤ k := by
  intro fuel
  induction fuel with
  | zero => intro j last nc hj; simp [scrollAux]; omega
  | succ n ih =>
    intro j last nc hj
    rcases Nat.eq_or_lt_of_le hj with he | hlt
    · subst he
      simp only [scrollAux, hL]
      split <;> simp
    · simp only [scrollAux]
      split
      · split
        · simp; omega
        · split
          · simp; omega
          · have := ih (j + 1) last (nc + 1) (by omega)
            omega
      · split
        · simp; omega
        · have := ih (j + 1) (counts j) 0 (by omega)
          omega


/-- C4 (amended): the crawl loop performs at most 500 scroll iterations on
any count sequence; once the measured count stops changing (the stall
counter resets on every change, decreases included, not only on growth) it
exits within five iterations; and it exits by the iteration at which the
configured non-zero limit is reached. -/
theorem C4_amended_termination :
    (∀ counts limit, (scrollToLoadAll counts limit).1 ≤ 500) ∧
    (∀ counts limit k, (∀ j, k ≤ j → counts j = counts k) →
      (scrollToLoadAll counts limit).1 ≤ k + 5) ∧
    (∀ counts limit k, limitHit limit (counts k) = true →
      (scrollToLoadAll counts limit).1 ≤ k) := by
  refine ⟨?_, ?_, ?_⟩
  · intro counts limit
    have h := scrollAux_exit_le counts limit 500 0 0 0
    simpa [scrollToLoadAll] using h
  · intro counts limit k hC
    exact scrollAux_before counts limit k hC 500 0 0 0 (Nat.zero_le k)
  · intro counts limit k hL
    exact scrollAux_limit counts limit k hL 500 0 0 0 (Nat.zero_le k)

/-- C4 witness: the stall bound and the limit bound at concrete inputs. -/
theorem C4_witness :
    (scrollToLoadAll (fun _ => 3) none).1 ≤ 0 + 5 ∧
    (scrollToLoadAll (fun _ => 7) (some 2)).1 ≤ 0 :=
  ⟨C4_amended_termination.2.1 (fun _ => 3) none 0 (fun _ _ => rfl),
   C4_amended_termination.2.2 (fun _ => 7) (some 2) 0 (by decide)⟩

/-- C7 (amended): a failed detail fetch never aborts the loop - every row
yields an entry - and the entry built with an absent detail result has empty
content, an empty sections mapping, and url, notes, metadata and title taken
from the listing summary; the number is the listing number when non-empty,
else the 1-based positional index. -/
theorem C7_amended_failed_detail :
    (∀ rows, (scrapeEntries rows).length = rows.length) ∧
    (∀ (data : EntrySummary) (i : Nat),
      (buildEntry data none i).content = [] ∧
      (buildEntry data none i).sections = [] ∧
      (buildEntry data none i).url = data.url ∧
      (buildEntry data none i).notes = data.notes ∧
      (buildEntry data none i).metadata = data.metadata ∧
      (buildEntry data none i).title = data.title ∧
      (buildEntry data none i).number = (if data.number = [] then natChars i else data.number)) := by
  constructor
  · intro rows
    simp [scrapeEntries]
  · intro data i
    by_cases hn : data.number = [] <;> by_cases ht : data.title = [] <;>
      simp [buildEntry, hn, ht]

theorem lenFourShape {α : Type} {l : List α} (h : l.length = 4) :
    ∃ a b c d, l = [a, b, c, d] := by
  match l, h with
  | [a, b, c, d], _ => exact ⟨a, b, c, d, rfl⟩

/-- The sutraani per-anchor acceptance agrees with the spec-side rule. -/
theorem parseSutraani_isSome (item : ListItem) (htag : item.tag = "a".toList) :
    (parseSingleSutraani item).isSome = specSegmentedValid (item.href.getD []) := by
  simp only [parseSingleSutraani, specSegmentedValid]
  by_cases hpre : ("/sutraani/".toList.isPrefixOf (item.href.getD [])) = true
  · rw [if_pos ⟨htag, hpre⟩, hpre]
    by_cases hlen : (splitOnChar '/' (pyStripChar '/' (item.href.getD []))).length = 4
    · obtain ⟨a, b, c, d, heq⟩ := lenFourShape hlen
      rw [heq]
      cases hb : pyIntOk b <;> cases hc : pyIntOk c <;> cases hd : pyIntOk d <;>
        simp [hb, hc, hd, List.all]
    · rw [if_neg hlen]
      simp [hlen]
  · rw [if_neg fun hc => hpre hc.2]
    simp only [Bool.not_eq_true] at hpre
    rw [hpre]
    simp


/-- C3: an anchor is accepted by the segmented-path listing parser exactly
when its href begins with the sutraani prefix and its slash-stripped path
has exactly four segments whose last three parse as integers; over a whole
listing, the parse keeps exactly the valid anchors. -/
theorem C3_segmented_validation :
    (∀ (item : ListItem), item.tag = "a".toList →
      (parseSingleSutraani item).isSome = specSegmentedValid (item.href.getD [])) ∧
    (∀ (items : List ListItem), (∀ it ∈ items, it.tag = "a".toList) →
      (items.filterMap parseSingleSutraani).length =
        (items.filter (fun it => specSegmentedValid (it.href.getD []))).length) := by
  constructor
  · exact parseSutraani_isSome
  · intro items hall
    induction items with
    | nil => rfl
    | cons it rest ih =>
      have htag := hall it (List.mem_cons_self it rest)
      have h := parseSutraani_isSome it htag
      simp only [List.filterMap_cons, List.filter_cons]
      cases hs : parseSingleSutraani it with
      | some s =>
        have hv : specSegmentedValid (it.href.getD []) = true := by rw [← h, hs]; rfl
        rw [hv]
        simp only [List.length_cons, if_true]
        rw [ih (fun x hx => hall x (List.mem_cons.mpr (Or.inr hx)))]
      | none =>
        have hv : specSegmentedValid (it.href.getD []) = false := by rw [← h, hs]; rfl
        rw [hv]
        simp only [Bool.false_eq_true, if_false]
        exact ih (fun x hx => hall x (List.mem_cons.mpr (Or.inr hx)))

/-- C3 witness: the acceptance rule applied to a concrete anchor. -/
theorem C3_witness :
    (parseSingleSutraani sutraaniItemExample).isSome =
      specSegmentedValid (sutraaniItemExample.href.getD []) :=
  C3_segmented_validation.1 sutraaniItemExample rfl

theorem splitOnChar_ne_nil (c : Char) (l : List Char) : splitOnChar c l ≠ [] := by
  cases l with
  | nil => simp [splitOnChar]
  | cons d rest =>
    simp only [splitOnChar]
    split
    · simp
    · split <;> simp

theorem joinSep_splitOnChar (c : Char) (l : List Char) :
    joinSep [c] (splitOnChar c l) = l := by
  induction l with
  | nil => rfl
  | cons d rest ih =>
    simp only [splitOnChar]
    by_cases hd : d = c
    · rw [if_pos hd, hd]
      cases hs : splitOnChar c rest with
      | nil => exact absurd hs (splitOnChar_ne_nil c rest)
      | cons p ps =>
        rw [hs] at ih
        simp only [joinSep]
        simp [ih]
    · rw [if_neg hd]
      cases hs : splitOnChar c rest with
      | nil => exact absurd hs (splitOnChar_ne_nil c rest)
      | cons p ps =>
        rw [hs] at ih
        cases ps with
        | nil => simp only [joinSep] at ih ⊢; rw [ih]
        | cons q qs => simp only [joinSep] at ih ⊢; simp [ih]

theorem notMem_of_mem_splitOnChar (c : Char) (l : List Char) :
    ∀ p ∈ splitOnChar c l, c ∉ p := by
  induction l with
  | nil =>
    intro p hp
    simp only [splitOnChar, List.mem_singleton] at hp
    subst hp
    simp
  | cons d rest ih =>
    intro p hp
    simp only [splitOnChar] at hp
    by_cases hd : d = c
    · rw [if_pos hd] at hp
      rcases List.mem_cons.mp hp with he | he
      · simp [he]
      · exact ih p he
    · rw [if_neg hd] at hp
      cases hs : splitOnChar c rest with
      | nil => exact absurd hs (splitOnChar_ne_nil c rest)
      | cons q qs =>
        rw [hs] at hp
        rcases List.mem_cons.mp hp with he | he
        · subst he
          intro hmem
          rcases List.mem_cons.mp hmem with h1 | h1
          · exact hd h1.symm
          · exact ih q (hs ▸ List.mem_cons_self q qs) h1
        · exact ih p (hs ▸ List.mem_cons.mpr (Or.inr he))

theorem splitOnChar_of_not_mem {c : Char} {l : List Char} (h : c ∉ l) :
    splitOnChar c l = [l] := by
  induction l with
  | nil => rfl
  | cons d rest ih =>
    have hd : d ≠ c := fun he => h (he ▸ List.mem_cons_self d rest)
    have hr : c ∉ rest := fun hm => h (List.mem_cons.mpr (Or.inr hm))
    simp only [splitOnChar, if_neg hd, ih hr]

theorem splitOnChar_append_cons {c : Char} {p : List Char} (hp : c ∉ p) (t : List Char) :
    splitOnChar c (p ++ c :: t) = p :: splitOnChar c t := by
  induction p with
  | nil => simp [splitOnChar]
  | cons d rest ih =>
    have hd : d ≠ c := fun he => hp (he ▸ List.mem_cons_self d rest)
    have hr : c ∉ rest := fun hm => hp (List.mem_cons.mpr (Or.inr hm))
    simp only [List.cons_append, splitOnChar, if_neg hd, List.append_eq]
    rw [ih hr]

theorem splitOnChar_joinSep {c : Char} {ps : List (List Char)}
    (h : ∀ p ∈ ps, c ∉ p) (hne : ps ≠ []) :
    splitOnChar c (joinSep [c] ps) = ps := by
  induction ps with
  | nil => exact absurd rfl hne
  | cons p qs ih =>
    cases qs with
    | nil => simp only [joinSep]; exact splitOnChar_of_not_mem (h p (by simp))
    | cons q rs =>
      simp only [joinSep]
      have : p ++ [c] ++ joinSep [c] (q :: rs) = p ++ c :: joinSep [c] (q :: rs) := by simp
      rw [this, splitOnChar_append_cons (h p (by simp))]
      rw [ih (fun r hr => h r (List.mem_cons.mpr (Or.inr hr))) (by simp)]

theorem mem_splitOnChar_length {c : Char} {l : List Char} :
    c ∈ l ↔ 2 ≤ (splitOnChar c l).length := by
  induction l with
  | nil => simp [splitOnChar]
  | cons d rest ih =>
    simp only [splitOnChar]
    by_cases hd : d = c
    · rw [if_pos hd]
      have := splitOnChar_ne_nil c rest
      constructor
      · intro _
        simp only [List.length_cons]
        have : 1 ≤ (splitOnChar c rest).length := by
          cases hs : splitOnChar c rest with
          | nil => exact absurd hs this
          | cons a b => simp
        omega
      · intro _
        exact List.mem_cons.mpr (Or.inl hd.symm)
    · rw [if_neg hd]
      cases hs : splitOnChar c rest with
      | nil => exact absurd hs (splitOnChar_ne_nil c rest)
      | cons p ps =>
        rw [hs] at ih
        constructor
        · intro hm
          rcases List.mem_cons.mp hm with he | he
          · exact absurd he.symm hd
          · have := ih.mp he
            simp only [List.length_cons] at this ⊢
            omega
        · intro hl
          simp only [List.length_cons] at hl
          have : 2 ≤ (p :: ps).length := by simp only [List.length_cons]; omega
          exact List.mem_cons.mpr (Or.inr (ih.mpr this))

theorem mem_joinSep {c : Char} {sep : List Char} {ps : List (List Char)}
    (h : c ∈ joinSep sep ps) : c ∈ sep ∨ ∃ p ∈ ps, c ∈ p := by
  induction ps with
  | nil => simp [joinSep] at h
  | cons p qs ih =>
    cases qs with
    | nil =>
      simp only [joinSep] at h
      exact Or.inr ⟨p, by simp, h⟩
    | cons q rs =>
      simp only [joinSep] at h
      rcases List.mem_append.mp h with h1 | h1
      · rcases List.mem_append.mp h1 with h2 | h2
        · exact Or.inr ⟨p, by simp, h2⟩
        · exact Or.inl h2
      · rcases ih h1 with h2 | ⟨r, hr, hcr⟩
        · exact Or.inl h2
        · exact Or.inr ⟨r, List.mem_cons.mpr (Or.inr hr), hcr⟩

theorem dropWhile_zeros_replicate (k : Nat) (s : List Char) :
    List.dropWhile (· == '0') (List.replicate k '0' ++ s) =
      List.dropWhile (· == '0') s := by
  induction k with
  | zero => simp
  | succ n ih => simp [List.replicate_succ, List.dropWhile_cons, ih]

theorem goodSeg_parts {s : List Char} (hs : goodSeg s = true) :
    s ≠ [] ∧ (∀ c ∈ s, isAsciiDigit c = true) ∧ (s.head? ≠ some '0' ∨ s = ['0']) := by
  simp only [goodSeg, Bool.and_eq_true, Bool.or_eq_true, Bool.not_eq_true'] at hs
  obtain ⟨⟨h1, h2⟩, h3⟩ := hs
  refine ⟨?_, ?_, ?_⟩
  · intro he
    rw [he] at h1
    exact absurd h1 (by decide)
  · intro c hc
    exact List.all_eq_true.mp h2 c hc
  · rcases h3 with h | h
    · left
      simpa using h
    · right
      simpa using h

theorem asciiDigit_not_sign {c : Char} (h : isAsciiDigit c = true) :
    ¬(c = '+' ∨ c = '-') := by
  simp only [isAsciiDigit, Bool.and_eq_true, decide_eq_true_eq] at h
  obtain ⟨h1, h2⟩ := h
  have hb1 : 48 ≤ c.toNat := h1
  rintro (he | he) <;> subst he <;> simp at hb1

theorem zfill_zero_singleton {w : Nat} (hw : 2 ≤ w) :
    zfill w ['0'] = List.replicate w '0' := by
  simp only [zfill, List.length_singleton]
  rw [if_neg (by omega), if_neg (by decide)]
  have : w = (w - 1) + 1 := by omega
  rw [this, List.replicate_succ' (w - 1) '0']
  simp

theorem unzero_zfill {w : Nat} {s : List Char} (hw : 2 ≤ w) (hs : goodSeg s = true) :
    unzero (zfill w s) = s := by
  obtain ⟨hne, hdig, hhead⟩ := goodSeg_parts hs
  cases s with
  | nil => exact absurd rfl hne
  | cons c rest =>
    by_cases hzero : c = '0'
    · rcases hhead with hh | hh
      · exact absurd (by simp [hzero]) hh
      · rw [hh, zfill_zero_singleton hw]
        simp only [unzero]
        rw [show List.dropWhile (· == '0') (List.replicate w '0') = [] from by
          have h2 := dropWhile_zeros_replicate w []
          rw [List.append_nil] at h2
          exact h2]
        simp
    · have hsign := asciiDigit_not_sign (hdig c (List.mem_cons_self c rest))
      have hcz : (c == '0') = false := by simp [hzero]
      by_cases hlen : w ≤ (c :: rest).length
      · simp only [zfill, if_pos hlen, unzero, List.dropWhile_cons, hcz]
        simp
      · simp only [zfill, if_neg hlen, if_neg hsign]
        simp only [unzero, dropWhile_zeros_replicate, List.dropWhile_cons, hcz]
        simp

theorem zfill_inj {w : Nat} (hw : 2 ≤ w) {a b : List Char}
    (ha : goodSeg a = true) (hb : goodSeg b = true) (h : zfill w a = zfill w b) :
    a = b := by
  rw [← unzero_zfill hw ha, ← unzero_zfill hw hb, h]

theorem mem_zfill {w : Nat} {s : List Char} {d : Char} (h : d ∈ zfill w s) :
    d = '0' ∨ d ∈ s := by
  simp only [zfill] at h
  split at h
  · exact Or.inr h
  · cases s with
    | nil =>
      replace h : d ∈ List.replicate w '0' := h
      exact Or.inl (List.mem_replicate.mp h).2
    | cons c rest =>
      replace h : d ∈ (if c = '+' ∨ c = '-' then
          c :: (List.replicate (w - (c :: rest).length) '0' ++ rest)
        else List.replicate (w - (c :: rest).length) '0' ++ (c :: rest)) := h
      split at h
      · rcases List.mem_cons.mp h with he | he
        · exact Or.inr (he ▸ List.mem_cons_self c rest)
        · rcases List.mem_append.mp he with h2 | h2
          · exact Or.inl (List.mem_replicate.mp h2).2
          · exact Or.inr (List.mem_cons.mpr (Or.inr h2))
      · rcases List.mem_append.mp h with h2 | h2
        · exact Or.inl (List.mem_replicate.mp h2).2
        · exact Or.inr h2

theorem devaMap_id_of_lt {c : Char} (h : c.toNat < 0x966) : devaMap c = c := by
  rw [devaMap_spec, specDigitMap, if_neg (by omega), if_neg (by omega)]

theorem devaToEnglish_id {n : List Char} (h : ∀ c ∈ n, c.toNat < 0x966) :
    devaToEnglish n = n := by
  induction n with
  | nil => rfl
  | cons c rest ih =>
    simp only [devaToEnglish, List.map_cons]
    rw [devaMap_id_of_lt (h c (by simp))]
    have h2 := ih (fun d hd => h d (by simp [hd]))
    simp only [devaToEnglish] at h2
    rw [h2]

theorem wf_chars_lt {n : List Char} (h : (splitOnChar '.' n).all goodSeg = true) :
    ∀ c ∈ n, c.toNat < 0x966 := by
  intro c hc
  have hn : n = joinSep ['.'] (splitOnChar '.' n) := (joinSep_splitOnChar '.' n).symm
  rw [hn] at hc
  rcases mem_joinSep hc with hsep | ⟨p, hp, hcp⟩
  · have : c = '.' := by simpa using hsep
    rw [this]
    decide
  · have hg := List.all_eq_true.mp h p hp
    have hd := (goodSeg_parts hg).2.1 c hcp
    simp only [isAsciiDigit, Bool.and_eq_true, decide_eq_true_eq] at hd
    have : c.toNat ≤ 57 := hd.2
    omega

theorem underscore_free_zfill {segs : List (List Char)} (h : ∀ p ∈ segs, goodSeg p = true) :
    ∀ q ∈ segs.map (zfill 2), '_' ∉ q := by
  intro q hq hmem
  rcases List.mem_map.mp hq with ⟨p, hp, hzp⟩
  rcases mem_zfill (hzp ▸ hmem) with he | he
  · exact absurd he (by decide)
  · have := (goodSeg_parts (h p hp)).2.1 '_' he
    simp only [isAsciiDigit, Bool.and_eq_true, decide_eq_true_eq] at this
    have h2 : ('_' : Char).toNat ≤ 57 := this.2
    simp at h2

theorem map_zfill_inj {w : Nat} (hw : 2 ≤ w) :
    ∀ {l1 l2 : List (List Char)}, (∀ p ∈ l1, goodSeg p = true) →
      (∀ p ∈ l2, goodSeg p = true) → l1.map (zfill w) = l2.map (zfill w) → l1 = l2 := by
  intro l1
  induction l1 with
  | nil =>
    intro l2 _ _ h
    cases l2 with
    | nil => rfl
    | cons p t => simp at h
  | cons p t ih =>
    intro l2 h1 h2 h
    cases l2 with
    | nil => simp at h
    | cons q u =>
      simp only [List.map_cons, List.cons.injEq] at h
      have hpq := zfill_inj hw (h1 p (by simp)) (h2 q (by simp)) h.1
      have htu := ih (fun r hr => h1 r (by simp [hr])) (fun r hr => h2 r (by simp [hr])) h.2
      rw [hpq, htu]

theorem entryFilename_formula {n : List Char}
    (h : (splitOnChar '.' n).all goodSeg = true) :
    entryFilename n =
      "entry_".toList ++ joinSep ['_'] ((splitOnChar '.' n).map (zfill 2)) ++ ".md".toList := by
  have hid : devaToEnglish n = n := devaToEnglish_id (wf_chars_lt h)
  have hund : "_".toList = ['_'] := rfl
  simp only [entryFilename, hid, hund]
  by_cases hdot : '.' ∈ n
  · rw [if_pos hdot]
  · rw [if_neg hdot]
    have hsplit : splitOnChar '.' n = [n] := splitOnChar_of_not_mem hdot
    have hg : goodSeg n = true := by
      rw [hsplit] at h
      simpa using h
    obtain ⟨hne, hdig, _⟩ := goodSeg_parts hg
    have hisd : pyStrIsdigit n = true := by
      simp only [pyStrIsdigit, Bool.and_eq_true, Bool.not_eq_true', List.all_eq_true]
      constructor
      · cases n with
        | nil => exact absurd rfl hne
        | cons c r => rfl
      · intro c hc
        simp only [isPyDigitChar, Bool.or_eq_true]
        exact Or.inl (Or.inl (hdig c hc))
    rw [if_pos hisd, hsplit]
    simp [joinSep]

theorem entryFilename_inj {n1 n2 : List Char}
    (h1 : (splitOnChar '.' n1).all goodSeg = true)
    (h2 : (splitOnChar '.' n2).all goodSeg = true)
    (heq : entryFilename n1 = entryFilename n2) : n1 = n2 := by
  rw [entryFilename_formula h1, entryFilename_formula h2] at heq
  have hstep := @List.append_cancel_left _ ("entry_".toList) _ _ heq
  have heq2 := @List.append_cancel_right _ _ (".md".toList) _ hstep
  have hg1 : ∀ p ∈ splitOnChar '.' n1, goodSeg p = true := List.all_eq_true.mp h1
  have hg2 : ∀ p ∈ splitOnChar '.' n2, goodSeg p = true := List.all_eq_true.mp h2
  have hne1 : (splitOnChar '.' n1).map (zfill 2) ≠ [] := by
    simp [splitOnChar_ne_nil '.' n1]
  have hne2 : (splitOnChar '.' n2).map (zfill 2) ≠ [] := by
    simp [splitOnChar_ne_nil '.' n2]
  have e1 := splitOnChar_joinSep (underscore_free_zfill hg1) hne1
  have e2 := splitOnChar_joinSep (underscore_free_zfill hg2) hne2
  have heq3 : joinSep ['_'] ((splitOnChar '.' n1).map (zfill 2)) =
      joinSep ['_'] ((splitOnChar '.' n2).map (zfill 2)) := by
    simpa using heq2
  have hmaps : (splitOnChar '.' n1).map (zfill 2) = (splitOnChar '.' n2).map (zfill 2) := by
    rw [← e1, ← e2, heq3]
  have hsegs := map_zfill_inj (by omega) hg1 hg2 hmaps
  rw [← joinSep_splitOnChar '.' n1, ← joinSep_splitOnChar '.' n2, hsegs]

theorem slash_notin_entryFilename {n : List Char}
    (h : (splitOnChar '.' n).all goodSeg = true) : '/' ∉ entryFilename n := by
  rw [entryFilename_formula h]
  intro hm
  rcases List.mem_append.mp hm with hm1 | hm1
  · rcases List.mem_append.mp hm1 with hm2 | hm2
    · exact absurd hm2 (by decide)
    · rcases mem_joinSep hm2 with hs | ⟨q, hq, hcq⟩
      · exact absurd hs (by decide)
      · rcases List.mem_map.mp hq with ⟨p, hp, hzp⟩
        rcases mem_zfill (hzp ▸ hcq) with he | he
        · exact absurd he (by decide)
        · have := (goodSeg_parts (List.all_eq_true.mp h p hp)).2.1 '/' he
          simp only [isAsciiDigit, Bool.and_eq_true, decide_eq_true_eq] at this
          have hb : 48 ≤ ('/' : Char).toNat := this.1
          simp at hb
  · exact absurd hm1 (by decide)

theorem lenThreeShape {α : Type} {l : List α} (h : l.length = 3) :
    ∃ a b c, l = [a, b, c] := by
  match l, h with
  | [a, b, c], _ => exact ⟨a, b, c, rfl⟩

theorem append_sep_inj {c : Char} {a a' b b' : List Char} (ha : c ∉ a) (ha' : c ∉ a')
    (h : a ++ c :: b = a' ++ c :: b') : a = a' ∧ b = b' := by
  induction a generalizing a' with
  | nil =>
    cases a' with
    | nil => simpa using h
    | cons d t =>
      simp only [List.nil_append, List.cons_append, List.cons.injEq] at h
      exact absurd (h.1 ▸ List.mem_cons_self d t) ha'
  | cons d t ih =>
    cases a' with
    | nil =>
      simp only [List.cons_append, List.nil_append, List.cons.injEq] at h
      exact absurd (h.1 ▸ List.mem_cons_self d t) ha
    | cons d' t' =>
      simp only [List.cons_append, List.cons.injEq] at h
      have hd : d = d' := h.1
      have hrec := ih (fun hm => ha (List.mem_cons.mpr (Or.inr hm)))
        (fun hm => ha' (List.mem_cons.mpr (Or.inr hm))) h.2
      exact ⟨by rw [hd, hrec.1], hrec.2⟩

theorem goodSeg_no_slash {p : List Char} (h : goodSeg p = true) : '/' ∉ p := by
  intro hm
  have := (goodSeg_parts h).2.1 '/' hm
  simp only [isAsciiDigit, Bool.and_eq_true, decide_eq_true_eq] at this
  have hb : 48 ≤ ('/' : Char).toNat := this.1
  simp at hb

theorem hierPath_formula {n p0 p1 p2 : List Char}
    (hsegs : splitOnChar '.' n = [p0, p1, p2])
    (hall : (splitOnChar '.' n).all goodSeg = true) :
    outputPath OrganizeBy.adhyayaPada n =
      ("adhyaya_".toList ++ p0) ++ '/' ::
        (("pada_".toList ++ p1) ++ '/' ::
          ("sutra_".toList ++ zfill 3 p2 ++ ".md".toList)) := by
  have hid : devaToEnglish n = n := devaToEnglish_id (wf_chars_lt hall)
  have hdot : '.' ∈ n := mem_splitOnChar_length.mpr (by rw [hsegs]; simp)
  simp only [outputPath, hid, hsegs]
  rw [if_pos ⟨trivial, hdot⟩, if_pos (by simp)]
  simp only [List.getD, List.getElem?_cons_zero, List.getElem?_cons_succ, Option.getD_some]
  rw [show ("/pada_".toList : List Char) = '/' :: "pada_".toList from rfl,
    show ("/sutra_".toList : List Char) = '/' :: "sutra_".toList from rfl]
  simp [List.append_assoc, List.cons_append]

theorem hierPath_inj {p0 p1 p2 q0 q1 q2 : List Char}
    (hp0 : goodSeg p0 = true) (hp1 : goodSeg p1 = true) (hp2 : goodSeg p2 = true)
    (hq0 : goodSeg q0 = true) (hq1 : goodSeg q1 = true) (hq2 : goodSeg q2 = true)
    (heq : ("adhyaya_".toList ++ p0) ++ '/' ::
        (("pada_".toList ++ p1) ++ '/' ::
          ("sutra_".toList ++ zfill 3 p2 ++ ".md".toList)) =
      ("adhyaya_".toList ++ q0) ++ '/' ::
        (("pada_".toList ++ q1) ++ '/' ::
          ("sutra_".toList ++ zfill 3 q2 ++ ".md".toList))) :
    p0 = q0 ∧ p1 = q1 ∧ p2 = q2 := by
  have hfree1 : ∀ {p : List Char}, goodSeg p = true → '/' ∉ "adhyaya_".toList ++ p := by
    intro p hp hm
    rcases List.mem_append.mp hm with h1 | h1
    · exact absurd h1 (by decide)
    · exact goodSeg_no_slash hp h1
  have hfree2 : ∀ {p : List Char}, goodSeg p = true → '/' ∉ "pada_".toList ++ p := by
    intro p hp hm
    rcases List.mem_append.mp hm with h1 | h1
    · exact absurd h1 (by decide)
    · exact goodSeg_no_slash hp h1
  have step1 := append_sep_inj (hfree1 hp0) (hfree1 hq0) heq
  have h0 : p0 = q0 := @List.append_cancel_left _ ("adhyaya_".toList) _ _ step1.1
  have step2 := append_sep_inj (hfree2 hp1) (hfree2 hq1) step1.2
  have h1 : p1 = q1 := @List.append_cancel_left _ ("pada_".toList) _ _ step2.1
  have hz : zfill 3 p2 ++ ".md".toList = zfill 3 q2 ++ ".md".toList :=
    @List.append_cancel_left _ ("sutra_".toList) _ _ step2.2
  have h2 : p2 = q2 :=
    zfill_inj (by omega) hp2 hq2 (@List.append_cancel_right _ _ (".md".toList) _ hz)
  exact ⟨h0, h1, h2⟩

theorem outputPath_flatcase {org : OrganizeBy} (n : List Char)
    (horg : org ≠ OrganizeBy.adhyayaPada) : outputPath org n = entryFilename n := by
  simp only [outputPath]
  rw [if_neg (fun hc => horg hc.1)]

theorem outputPath_ap_short {n : List Char}
    (hall : (splitOnChar '.' n).all goodSeg = true)
    (hlen : (splitOnChar '.' n).length ≠ 3)
    (hle : (splitOnChar '.' n).length ≤ 3) :
    outputPath OrganizeBy.adhyayaPada n = entryFilename n := by
  by_cases hdot : '.' ∈ n
  · have hge := mem_splitOnChar_length.mp hdot
    have hid := devaToEnglish_id (wf_chars_lt hall)
    simp only [outputPath, hid]
    rw [if_pos ⟨trivial, hdot⟩, if_neg (by omega)]
  · simp only [outputPath]
    rw [if_neg (fun hc => hdot hc.2)]

/-- C1 (amended): for one organization mode, well-formed entry numbers
(canonical dot-separated ASCII-digit segments, at most three for the
hierarchical mode) map injectively to output paths; and the positional-index
fallback applies exactly when the listing number is empty and the detail
result is absent - an empty number with a present detail result keeps the
detail page number, which may itself be empty and collide. -/
theorem C1_amended_path_model :
    (∀ (org : OrganizeBy) (n1 n2 : List Char),
      wellFormedNum org n1 = true → wellFormedNum org n2 = true →
      outputPath org n1 = outputPath org n2 → n1 = n2) ∧
    (∀ (ln : List Char) (i : Nat),
      resolveNumber ln none i = if ln = [] then natChars i else ln) := by
  constructor
  · intro org n1 n2 hw1 hw2 heq
    simp only [wellFormedNum, Bool.and_eq_true] at hw1 hw2
    obtain ⟨hall1, hlen1⟩ := hw1
    obtain ⟨hall2, hlen2⟩ := hw2
    by_cases horg : org = OrganizeBy.adhyayaPada
    · subst horg
      have hl1 : (splitOnChar '.' n1).length ≤ 3 := by simpa using hlen1
      have hl2 : (splitOnChar '.' n2).length ≤ 3 := by simpa using hlen2
      by_cases h31 : (splitOnChar '.' n1).length = 3 <;>
        by_cases h32 : (splitOnChar '.' n2).length = 3
      · obtain ⟨p0, p1, p2, hs1⟩ := lenThreeShape h31
        obtain ⟨q0, q1, q2, hs2⟩ := lenThreeShape h32
        rw [hierPath_formula hs1 hall1, hierPath_formula hs2 hall2] at heq
        have hg1 := List.all_eq_true.mp hall1
        have hg2 := List.all_eq_true.mp hall2
        rw [hs1] at hg1
        rw [hs2] at hg2
        obtain ⟨e0, e1, e2⟩ := hierPath_inj (hg1 p0 (by simp)) (hg1 p1 (by simp))
          (hg1 p2 (by simp)) (hg2 q0 (by simp)) (hg2 q1 (by simp)) (hg2 q2 (by simp)) heq
        rw [← joinSep_splitOnChar '.' n1, ← joinSep_splitOnChar '.' n2, hs1, hs2, e0, e1, e2]
      · obtain ⟨p0, p1, p2, hs1⟩ := lenThreeShape h31
        rw [hierPath_formula hs1 hall1, outputPath_ap_short hall2 h32 hl2] at heq
        have hsl : '/' ∈ ("adhyaya_".toList ++ p0) ++ '/' ::
            (("pada_".toList ++ p1) ++ '/' ::
              ("sutra_".toList ++ zfill 3 p2 ++ ".md".toList)) :=
          List.mem_append_right _ (List.mem_cons_self _ _)
        rw [heq] at hsl
        exact absurd hsl (slash_notin_entryFilename hall2)
      · obtain ⟨q0, q1, q2, hs2⟩ := lenThreeShape h32
        rw [hierPath_formula hs2 hall2, outputPath_ap_short hall1 h31 hl1] at heq
        have hsl : '/' ∈ ("adhyaya_".toList ++ q0) ++ '/' ::
            (("pada_".toList ++ q1) ++ '/' ::
              ("sutra_".toList ++ zfill 3 q2 ++ ".md".toList)) :=
          List.mem_append_right _ (List.mem_cons_self _ _)
        rw [← heq] at hsl
        exact absurd hsl (slash_notin_entryFilename hall1)
      · rw [outputPath_ap_short hall1 h31 hl1, outputPath_ap_short hall2 h32 hl2] at heq
        exact entryFilename_inj hall1 hall2 heq
    · rw [outputPath_flatcase n1 horg, outputPath_flatcase n2 horg] at heq
      exact entryFilename_inj hall1 hall2 heq
  · intro ln i
    by_cases h : ln = [] <;> simp [resolveNumber, h]


/-- C1 witness: the injectivity statement and the fallback equation applied
at concrete inputs. -/
theorem C1_witness :
    ("1.2.15".toList : List Char) = "1.2.15".toList ∧
    resolveNumber [] none 5 = (if ([] : List Char) = [] then natChars 5 else []) :=
  ⟨C1_amended_path_model.1 OrganizeBy.flat "1.2.15".toList "1.2.15".toList
      (by decide) (by decide) rfl,
   C1_amended_path_model.2 [] 5⟩

theorem dropWhile_head_false {p : Char → Bool} {l : List Char} {c : Char} {rest : List Char}
    (h : List.dropWhile p l = c :: rest) : p c = false := by
  induction l with
  | nil => simp at h
  | cons d t ih =>
    by_cases hd : p d = true
    · rw [List.dropWhile_cons_of_pos hd] at h
      exact ih h
    · rw [List.dropWhile_cons_of_neg hd] at h
      cases h
      simpa using hd

theorem dropWhile_of_head_false {p : Char → Bool} {l : List Char}
    (h : ∀ c ∈ l.head?, p c = false) : List.dropWhile p l = l := by
  cases l with
  | nil => rfl
  | cons d t =>
    have := h d (by simp)
    rw [List.dropWhile_cons_of_neg (by simp [this])]

theorem pyStrip_fixed {l : List Char}
    (hh : ∀ c ∈ l.head?, isPySpace c = false)
    (hl : ∀ c ∈ l.getLast?, isPySpace c = false) :
    pyStrip l = l := by
  unfold pyStrip
  rw [dropWhile_of_head_false hh]
  rw [dropWhile_of_head_false (by rw [List.head?_reverse]; exact hl)]
  exact List.reverse_reverse l

theorem pyStrip_head_false {l : List Char} {c : Char} {rest : List Char}
    (h : pyStrip l = c :: rest) : isPySpace c = false := by
  unfold pyStrip at h
  generalize hy : List.dropWhile isPySpace l = y at h
  cases y with
  | nil => simp at h
  | cons d t =>
    have hd := dropWhile_head_false hy
    have hpre : (List.dropWhile isPySpace (d :: t).reverse).reverse <+: (d :: t) := by
      have hs := List.dropWhile_suffix (l := (d :: t).reverse) isPySpace
      have := List.reverse_prefix.mpr hs
      simpa using this
    rw [h] at hpre
    obtain ⟨r, hr⟩ := hpre
    have hcd : c = d := by
      have := congrArg List.head? hr
      simpa using this
    rw [hcd]
    exact hd

theorem pyStrip_last_false {l : List Char} :
    ∀ c ∈ (pyStrip l).getLast?, isPySpace c = false := by
  intro c hc
  unfold pyStrip at hc
  rw [List.getLast?_reverse] at hc
  generalize hz : List.dropWhile isPySpace (List.dropWhile isPySpace l).reverse = z at hc
  cases z with
  | nil => simp at hc
  | cons d t =>
    have hd := dropWhile_head_false hz
    simp only [List.head?_cons, Option.mem_def, Option.some.injEq] at hc
    rw [← hc]
    exact hd

theorem getTextStrip_piece {t : HTree} {q : List Char}
    (hq : q ∈ ((allTexts t).map pyStrip).filter (fun p => !p.isEmpty)) :
    q ≠ [] ∧ ∃ x, q = pyStrip x := by
  have h1 := List.of_mem_filter hq
  have h2 := List.mem_of_mem_filter hq
  constructor
  · simpa using h1
  · rcases List.mem_map.mp h2 with ⟨x, _, hx⟩
    exact ⟨x, hx.symm⟩

theorem joinSep_head {sep q : List Char} {ps : List (List Char)} (hq : q ≠ []) :
    (joinSep sep (q :: ps)).head? = q.head? := by
  cases ps with
  | nil => rfl
  | cons p rest =>
    simp only [joinSep]
    cases q with
    | nil => exact absurd rfl hq
    | cons c t => simp

theorem joinSep_ne_nil {sep q : List Char} {ps : List (List Char)} (hq : q ≠ []) :
    joinSep sep (q :: ps) ≠ [] := by
  intro he
  have := congrArg List.head? he
  rw [joinSep_head hq] at this
  cases q with
  | nil => exact absurd rfl hq
  | cons c t => simp at this

theorem joinSep_last {sep : List Char} :
    ∀ {ps : List (List Char)}, ps ≠ [] → (∀ q ∈ ps, q ≠ []) →
      ∃ q ∈ ps, (joinSep sep ps).getLast? = q.getLast? := by
  intro ps
  induction ps with
  | nil => intro h _; exact absurd rfl h
  | cons q rest ih =>
    intro _ hall
    cases rest with
    | nil => exact ⟨q, by simp, rfl⟩
    | cons p rest2 =>
      obtain ⟨r, hr, hlast⟩ := ih (by simp)
        (fun x hx => hall x (List.mem_cons.mpr (Or.inr hx)))
      refine ⟨r, List.mem_cons.mpr (Or.inr hr), ?_⟩
      simp only [joinSep]
      rw [List.append_assoc, List.getLast?_append, List.getLast?_append]
      have hne : joinSep sep (p :: rest2) ≠ [] := joinSep_ne_nil (hall p (by simp))
      cases hv : (joinSep sep (p :: rest2)).getLast? with
      | none =>
        rw [List.getLast?_eq_none_iff] at hv
        exact absurd hv hne
      | some v =>
        rw [hv] at hlast
        simpa [Option.or] using hlast

theorem getTextStrip_trimmed (t : HTree) : pyStrip (getTextStrip t) = getTextStrip t := by
  unfold getTextStrip
  cases hps : ((allTexts t).map pyStrip).filter (fun p => !p.isEmpty) with
  | nil => rfl
  | cons q rest =>
    have hq : q ≠ [] ∧ ∃ x, q = pyStrip x :=
      getTextStrip_piece (t := t) (by rw [hps]; exact List.mem_cons_self q rest)
    apply pyStrip_fixed
    · rw [joinSep_head hq.1]
      intro c hc
      obtain ⟨x, hx⟩ := hq.2
      cases hq2 : q with
      | nil => exact absurd hq2 hq.1
      | cons d u =>
        rw [hq2] at hc
        simp only [List.head?_cons, Option.mem_def, Option.some.injEq] at hc
        rw [← hc]
        exact pyStrip_head_false (hx.symm.trans hq2)
    · have hall : ∀ r ∈ q :: rest, r ≠ [] := by
        intro r hrr
        exact (getTextStrip_piece (t := t) (by rw [hps]; exact hrr)).1
      obtain ⟨r, hr, hlast⟩ := @joinSep_last [] _ (by simp) hall
      rw [hlast]
      have hrp := getTextStrip_piece (t := t) (by rw [hps]; exact hr)
      obtain ⟨x, hx⟩ := hrp.2
      rw [hx]
      exact pyStrip_last_false

theorem splitFirstSpace_no_space {t : List Char} (h : ' ' ∉ t) : splitFirstSpace t = [t] := by
  induction t with
  | nil => rfl
  | cons c rest ih =>
    have hc : c ≠ ' ' := fun he => h (he ▸ List.mem_cons_self c rest)
    have hr : ' ' ∉ rest := fun hm => h (List.mem_cons.mpr (Or.inr hm))
    simp only [splitFirstSpace, if_neg hc, ih hr]

/-- C10 (amended): for a detail page whose title text is non-empty and
contains no space character, the extractor returns that entire text as
both the number and the title. -/
theorem C10_amended_split (p : DetailPage) (hns : ' ' ∉ titleTextOf p)
    (hne : titleTextOf p ≠ []) :
    (parseDetailPage p).number = titleTextOf p ∧
    (parseDetailPage p).title = titleTextOf p := by
  have htr : pyStrip (titleTextOf p) = titleTextOf p := by
    unfold titleTextOf
    cases p.titleElem with
    | some e => exact getTextStrip_trimmed e
    | none => rfl
  simp only [parseDetailPage, if_pos hne, splitFirstSpace_no_space hns]
  constructor
  · simp [htr]
  · simp

theorem all_space_of_pyStrip_nil {v : List Char} (h : pyStrip v = []) :
    ∀ c ∈ v, isPySpace c = true := by
  unfold pyStrip at h
  rw [List.reverse_eq_nil_iff, List.dropWhile_eq_nil_iff] at h
  intro c hc
  rw [← List.takeWhile_append_dropWhile (p := isPySpace) (l := v)] at hc
  rcases List.mem_append.mp hc with h1 | h1
  · exact List.mem_takeWhile_imp h1
  · exact h c (List.mem_reverse.mpr h1)

theorem pyStrip_ne_nil_of_nonspace {v : List Char} {c : Char} (hc : c ∈ v)
    (hs : isPySpace c = false) : pyStrip v ≠ [] := by
  intro h
  have := all_space_of_pyStrip_nil h c hc
  rw [this] at hs
  cases hs

theorem mem_joinSep_of {c : Char} {sep p : List Char} {ps : List (List Char)}
    (hp : p ∈ ps) (hc : c ∈ p) : c ∈ joinSep sep ps := by
  induction ps with
  | nil => simp at hp
  | cons q rest ih =>
    cases rest with
    | nil =>
      simp only [List.mem_singleton] at hp
      simp only [joinSep]
      exact hp ▸ hc
    | cons r rs =>
      simp only [joinSep]
      rcases List.mem_cons.mp hp with he | he
      · exact List.mem_append_left _ (List.mem_append_left _ (he ▸ hc))
      · exact List.mem_append_right _ (ih he)

theorem getTextStrip_nonspace {e : HTree} (h : getTextStrip e ≠ []) :
    ∃ c ∈ getTextStrip e, isPySpace c = false := by
  unfold getTextStrip at h ⊢
  cases hps : ((allTexts e).map pyStrip).filter (fun p => !p.isEmpty) with
  | nil => rw [hps] at h; simp [joinSep] at h
  | cons q rest =>
    have hq : q ≠ [] ∧ ∃ x, q = pyStrip x :=
      getTextStrip_piece (t := e) (by rw [hps]; exact List.mem_cons_self q rest)
    obtain ⟨x, hx⟩ := hq.2
    cases hq2 : q with
    | nil => exact absurd hq2 hq.1
    | cons d u =>
      have hd : isPySpace d = false := pyStrip_head_false (hx.symm.trans hq2)
      refine ⟨d, ?_, hd⟩
      exact mem_joinSep_of (List.mem_cons_self _ rest) (List.mem_cons_self d u)

theorem summaryItem_nonblank {r : SummaryRow} {q : List Char}
    (h : summaryItem r = some q) : ∃ c ∈ q, isPySpace c = false := by
  unfold summaryItem at h
  split at h
  · dsimp only at h
    split at h
    · injection h with h2
      refine ⟨'*', ?_, by decide⟩
      rw [← h2]
      simp
    · exact Option.noConfusion h
  · dsimp only at h
    split at h
    · next hcond =>
      injection h with h2
      obtain ⟨c, hcm, hcs⟩ := getTextStrip_nonspace hcond.1
      exact ⟨c, h2 ▸ hcm, hcs⟩
    · exact Option.noConfusion h

theorem summaryContent_nonblank {p : DetailPage} (h : summaryContentOf p ≠ []) :
    pyStrip (summaryContentOf p) ≠ [] := by
  unfold summaryContentOf at h ⊢
  cases hrows : p.summaryRows with
  | none =>
    rw [hrows] at h
    dsimp only at h
    exact absurd rfl h
  | some rows =>
    rw [hrows] at h
    dsimp only at h ⊢
    by_cases hit : rows.filterMap summaryItem ≠ []
    · rw [if_pos hit] at h ⊢
      cases hqr : rows.filterMap summaryItem with
      | nil => exact absurd hqr hit
      | cons q rest =>
        obtain ⟨r, _, hrq⟩ :=
          List.mem_filterMap.mp (hqr ▸ List.mem_cons_self q rest)
        obtain ⟨c, hcq, hcs⟩ := summaryItem_nonblank hrq
        apply pyStrip_ne_nil_of_nonspace (c := c) _ hcs
        exact mem_joinSep_of (List.mem_cons_self q rest) hcq
    · rw [if_neg hit] at h
      exact absurd rfl h

/-- C8: every section stored in the parsed result of a detail page, the
summary section as well as each named commentary region, carries content
whose Python strip is non-empty. -/
theorem C8_sections_nonblank (p : DetailPage) :
    ∀ s ∈ (parseDetailPage p).sections, pyStrip s.2 ≠ [] := by
  intro s hs
  simp only [parseDetailPage] at hs
  rcases List.mem_append.mp hs with h1 | h1
  · split at h1
    · next hsum =>
      simp only [List.mem_singleton] at h1
      rw [h1]
      exact summaryContent_nonblank hsum
    · simp at h1
  · obtain ⟨r, _, hrs⟩ := List.mem_filterMap.mp h1
    unfold regionSection at hrs
    split at hrs
    · exact Option.noConfusion hrs
    · dsimp only at hrs
      split at hrs
      · exact Option.noConfusion hrs
      · cases hc : r.contentElem with
        | none =>
          rw [hc] at hrs
          exact Option.noConfusion hrs
        | some ns =>
          rw [hc] at hrs
          dsimp only at hrs
          generalize htmlToMarkdown ns = ct at hrs
          by_cases hct : pyStrip ct ≠ []
          · rw [if_pos hct] at hrs
            injection hrs with hrs2
            rw [← hrs2]
            exact hct
          · rw [if_neg hct] at hrs
            exact Option.noConfusion hrs

/-- C10 witness: the amended split theorem at a concrete space-free page. -/
theorem C10_witness :
    (parseDetailPage titlePageExample).number = titleTextOf titlePageExample ∧
    (parseDetailPage titlePageExample).title = titleTextOf titlePageExample :=
  C10_amended_split titlePageExample (by decide) (by decide)

/-- C8 witness: the non-blank-sections theorem at a concrete commentary page. -/
theorem C8_witness : pyStrip "पाठ".toList ≠ [] :=
  C8_sections_nonblank commentaryPageExample (("नाम".toList, "पाठ".toList)) (by decide)

theorem paraSplitGo_no_marker :
    ∀ (l : List Char), hasSub paraMarker l = false →
      ∀ (acc : List Char), paraSplitGo l acc = [acc.reverse ++ l] := by
  intro l
  induction l with
  | nil => intro _ acc; simp [paraSplitGo]
  | cons c rest ih =>
    intro h acc
    rw [paraSplitGo.eq_def]
    split
    · rename_i r6 hEq
      exfalso
      rw [hEq] at h
      simp [hasSub, paraMarker, List.isPrefixOf] at h
    · rename_i d rest2 hno hEq
      injection hEq with hc hrest
      subst hc
      subst hrest
      have hr : hasSub paraMarker rest = false := by
        simp only [hasSub, Bool.or_eq_false_iff] at h
        exact h.2
      rw [ih hr]
      simp
    · rename_i hEq
      exact absurd hEq (by simp)

theorem paraSplit_no_marker {l : List Char} (h : hasSub paraMarker l = false) :
    paraSplit l = [l] := by
  unfold paraSplit
  rw [paraSplitGo_no_marker l h []]
  simp

theorem arrowFormat_id {t : List Char} (h : '→' ∉ t ∨ t.head? = some '>') :
    arrowFormat t = t := by
  unfold arrowFormat
  rw [if_neg]
  intro hcon
  rcases h with h | h
  · exact h hcon.1
  · exact hcon.2 h

theorem processPara_id {t : List Char} (h3 : pyStrip t = t) (h4 : t ≠ [])
    (h5 : '→' ∉ t ∨ t.head? = some '>') : processPara t = some t := by
  unfold processPara
  dsimp only
  rw [h3, if_neg h4, arrowFormat_id h5]

/-- C2 (amended): the transformer is idempotent on texts already in its
normal form: no space or tab runs, no paragraph marker, stripped,
non-empty, no triple newline, no empty emphasis pair, no whitespace before
clause punctuation, and either free of the derivation arrow or starting
with the block-quote marker. -/
theorem C2_amended_idempotent (t : List Char)
    (h1 : collapseSpaces t = t) (h2 : hasSub paraMarker t = false)
    (h3 : pyStrip t = t) (h4 : t ≠ [])
    (h5 : '→' ∉ t ∨ t.head? = some '>')
    (h6 : collapseNewlines t = t) (h7 : removeEmptyBold t = t)
    (h8 : fixPunct t = t) :
    transformPlain t = t := by
  have hpp : transformPlain t = postProcess t := rfl
  rw [hpp]
  unfold postProcess
  dsimp only
  rw [h1, paraSplit_no_marker h2]
  simp only [List.filterMap_cons, List.filterMap_nil, processPara_id h3 h4 h5]
  show pyStrip (fixPunct (removeEmptyBold (collapseNewlines (joinSep "\n\n".toList [t])))) = t
  have hj : joinSep "\n\n".toList [t] = t := rfl
  rw [hj, h6, h7, h8, h3]

/-- C2 witness: idempotence at a concrete two-paragraph normal form. -/
theorem C2_witness : transformPlain "ab\n\ncd".toList = "ab\n\ncd".toList :=
  C2_amended_idempotent "ab\n\ncd".toList (by decide) (by decide) (by decide)
    (by decide) (by decide) (by decide) (by decide) (by decide)

end Ashtadhyayi
